import Mathlib

/-!
Verification of the deribit-perpetual-funding repository: a shallow Lean
embedding of the monthly funding fetch-and-assemble pipeline
(pull_and_save_monthly_data.py) and the aggregation engine of the web
dashboard (chart_app.py), together with theorems settling the spec claims.

Numeric funding values are embedded as rationals; timestamps as integers
(Unix epoch milliseconds); months as (year, month) pairs.
-/

/-! ## Calendar arithmetic

Model of the proleptic Gregorian calendar as implemented by Python
datetime with tzinfo=timezone.utc.  The source only ever builds
first-of-month datetimes (_month_start_utc) and converts them to epoch
milliseconds (_to_ms), so it suffices to model the epoch day number of
the first day of a (year, month) pair.
-/

def isLeap (y : Nat) : Bool := (y % 4 == 0 && y % 100 != 0) || y % 400 == 0

def daysInMonth (y m : Nat) : Nat :=
  if m = 2 then (if isLeap y then 29 else 28)
  else if m = 4 ∨ m = 6 ∨ m = 9 ∨ m = 11 then 30
  else 31

def daysInYear (y : Nat) : Nat := if isLeap y then 366 else 365

/-- Days from the first of January of year y to the first of month m of year y. -/
def daysBeforeMonthIn (y m : Nat) : Nat :=
  ((List.range (m - 1)).map (fun k => daysInMonth y (k + 1))).sum

/-- Days from 0000-01-01 to the first of January of year y (proleptic Gregorian). -/
def daysFromYear0 (y : Nat) : Nat := ((List.range y).map daysInYear).sum

/-- Day number of the Unix epoch 1970-01-01 counted from 0000-01-01. -/
def epochDays : Nat := daysFromYear0 1970

/-- A calendar month, as held by the datetime values in the source
(day is always 1 there).  Valid months have 1 <= m <= 12. -/
structure Month where
  y : Nat
  m : Nat
deriving DecidableEq

def ValidMonth (c : Month) : Prop := 1 ≤ c.m ∧ c.m ≤ 12

instance (c : Month) : Decidable (ValidMonth c) :=
  inferInstanceAs (Decidable (1 ≤ c.m ∧ c.m ≤ 12))

/-- Linear index of a month; datetime comparison on first-of-month values
is equivalent to comparing this index (for valid months). -/
def monthIdx (c : Month) : Nat := c.y * 12 + (c.m - 1)

/-- Model of _add_one_month: successor month, wrapping 12 to 1 across a
year boundary. -/
def addOneMonth (c : Month) : Month :=
  if c.m = 12 then ⟨c.y + 1, 1⟩ else ⟨c.y, c.m + 1⟩

/-- Model of _to_ms (_month_start_utc y m): epoch milliseconds of the
first instant of the month, i.e. int(datetime(y, m, 1, tzinfo=utc).timestamp() * 1000). -/
def monthStartMs (c : Month) : Int :=
  ((daysFromYear0 c.y + daysBeforeMonthIn c.y c.m : Int) - (epochDays : Int)) * 86400000

def pad2 (n : Nat) : String := if n < 10 then "0" ++ toString n else toString n

def pad4 (n : Nat) : String :=
  if n < 10 then "000" ++ toString n
  else if n < 100 then "00" ++ toString n
  else if n < 1000 then "0" ++ toString n
  else toString n

/-- Model of _month_label: the YYYY-MM string of a month. -/
def monthLabel (c : Month) : String := pad4 c.y ++ "-" ++ pad2 c.m

/-! ## Month-Range Partitioner

The assembler loop in fetch_monthly_funding_multi_instruments_to_csv walks
current from the start month while current <= end month, producing for each
month a query window (start_ts, end_ts) with start_ts the first millisecond
of the month and end_ts the millisecond just before the next month starts.
-/

structure Window where
  month : Month
  startTs : Int
  endTs : Int
deriving DecidableEq

def mkWindow (c : Month) : Window :=
  ⟨c, monthStartMs c, monthStartMs (addOneMonth c) - 1⟩

def windowsGo : Nat → Month → List Window
  | 0, _ => []
  | n + 1, cur => mkWindow cur :: windowsGo n (addOneMonth cur)

/-- The sequence of month windows visited by the assembler loop from s to e
inclusive.  The fuel monthIdx e + 1 - monthIdx s is exactly the number of
loop iterations; monthWindows_stop and monthWindows_step below certify that
this definition satisfies the defining equations of the source while loop. -/
def monthWindows (s e : Month) : List Window :=
  windowsGo (monthIdx e + 1 - monthIdx s) s

def addMonths : Nat → Month → Month
  | 0, c => c
  | n + 1, c => addMonths n (addOneMonth c)

theorem monthIdx_addOneMonth (c : Month) (h : 1 ≤ c.m) :
    monthIdx (addOneMonth c) = monthIdx c + 1 := by
  unfold addOneMonth monthIdx
  by_cases h12 : c.m = 12 <;> simp [h12] <;> omega

theorem addOneMonth_valid (c : Month) (h : ValidMonth c) :
    ValidMonth (addOneMonth c) := by
  obtain ⟨h1, h2⟩ := h
  unfold addOneMonth ValidMonth
  by_cases h12 : c.m = 12 <;> simp [h12] <;> omega

theorem addMonths_valid (n : Nat) (c : Month) (h : ValidMonth c) :
    ValidMonth (addMonths n c) := by
  induction n generalizing c with
  | zero => exact h
  | succ k ih => exact ih (addOneMonth c) (addOneMonth_valid c h)

theorem monthIdx_addMonths (n : Nat) (c : Month) (h : ValidMonth c) :
    monthIdx (addMonths n c) = monthIdx c + n := by
  induction n generalizing c with
  | zero => rfl
  | succ k ih =>
    have hstep : addMonths (k + 1) c = addMonths k (addOneMonth c) := rfl
    rw [hstep, ih (addOneMonth c) (addOneMonth_valid c h),
      monthIdx_addOneMonth c h.1]
    omega

/-- The loop does not run when the start month is past the end month. -/
theorem monthWindows_stop (s e : Month) (h : monthIdx e < monthIdx s) :
    monthWindows s e = [] := by
  unfold monthWindows
  have hz : monthIdx e + 1 - monthIdx s = 0 := by omega
  rw [hz]
  rfl

/-- One iteration of the loop: emit the window of the current month and
continue from the next month. -/
theorem monthWindows_step (s e : Month) (hm : 1 ≤ s.m)
    (h : monthIdx s ≤ monthIdx e) :
    monthWindows s e = mkWindow s :: monthWindows (addOneMonth s) e := by
  unfold monthWindows
  rw [monthIdx_addOneMonth s hm]
  have h2 : monthIdx e + 1 - monthIdx s = (monthIdx e + 1 - (monthIdx s + 1)) + 1 := by
    omega
  rw [h2]
  rfl

theorem windowsGo_length (n : Nat) : ∀ c : Month, (windowsGo n c).length = n := by
  induction n with
  | zero => intro c; rfl
  | succ k ih => intro c; simp [windowsGo, ih]

theorem windowsGo_getElem (n : Nat) :
    ∀ (c : Month) (i : Nat) (hi : i < (windowsGo n c).length),
      (windowsGo n c)[i] = mkWindow (addMonths i c) := by
  induction n with
  | zero => intro c i hi; simp [windowsGo] at hi
  | succ k ih =>
    intro c i hi
    match i with
    | 0 => rfl
    | j + 1 =>
      have hj : j < (windowsGo k (addOneMonth c)).length := by
        simp [windowsGo] at hi
        simpa [windowsGo_length] using hi
      simpa [windowsGo] using ih (addOneMonth c) j hj

theorem daysBeforeMonthIn_succ (y m : Nat) (h : 1 ≤ m) :
    daysBeforeMonthIn y (m + 1) = daysBeforeMonthIn y m + daysInMonth y m := by
  obtain ⟨mm, rfl⟩ : ∃ mm, m = mm + 1 := ⟨m - 1, by omega⟩
  unfold daysBeforeMonthIn
  simp [List.range_succ]

theorem daysFromYear0_succ (y : Nat) :
    daysFromYear0 (y + 1) = daysFromYear0 y + daysInYear y := by
  unfold daysFromYear0
  simp [List.range_succ]

theorem daysBeforeMonth_year (y : Nat) :
    daysBeforeMonthIn y 12 + daysInMonth y 12 = daysInYear y := by
  unfold daysBeforeMonthIn daysInYear
  by_cases h : isLeap y <;>
    simp [List.range_succ, daysInMonth, h] <;> norm_num

theorem daysInMonth_pos (y m : Nat) : 0 < daysInMonth y m := by
  unfold daysInMonth
  split <;> [skip; split] <;> first | (split <;> norm_num) | norm_num

theorem monthStartMs_addOneMonth (c : Month) (h : ValidMonth c) :
    monthStartMs (addOneMonth c) =
      monthStartMs c + (daysInMonth c.y c.m : Int) * 86400000 := by
  obtain ⟨h1, h2⟩ := h
  by_cases h12 : c.m = 12
  · have hd : daysFromYear0 (c.y + 1) + daysBeforeMonthIn (c.y + 1) 1 =
        daysFromYear0 c.y + daysBeforeMonthIn c.y 12 + daysInMonth c.y 12 := by
      have hb : daysBeforeMonthIn (c.y + 1) 1 = 0 := rfl
      rw [hb, daysFromYear0_succ, ← daysBeforeMonth_year c.y]
      omega
    unfold monthStartMs addOneMonth
    simp only [h12, if_pos]
    have hd2 : ((daysFromYear0 (c.y + 1) : Int) + (daysBeforeMonthIn (c.y + 1) 1 : Int)) =
        (daysFromYear0 c.y : Int) + (daysBeforeMonthIn c.y 12 : Int) +
          (daysInMonth c.y 12 : Int) := by exact_mod_cast hd
    rw [hd2]
    ring
  · have hd : daysBeforeMonthIn c.y (c.m + 1) =
        daysBeforeMonthIn c.y c.m + daysInMonth c.y c.m :=
      daysBeforeMonthIn_succ c.y c.m h1
    unfold monthStartMs addOneMonth
    simp only [h12, if_neg, ite_false]
    have hd2 : ((daysBeforeMonthIn c.y (c.m + 1) : Nat) : Int) =
        (daysBeforeMonthIn c.y c.m : Int) + (daysInMonth c.y c.m : Int) := by
      exact_mod_cast hd
    rw [hd2]
    ring

theorem monthStartMs_lt_addOneMonth (c : Month) (h : ValidMonth c) :
    monthStartMs c < monthStartMs (addOneMonth c) := by
  rw [monthStartMs_addOneMonth c h]
  have hp : 0 < daysInMonth c.y c.m := daysInMonth_pos c.y c.m
  have hp2 : (0 : Int) < (daysInMonth c.y c.m : Int) := by exact_mod_cast hp
  nlinarith

/-! ## Resilient Fetch Wrapper

Model of get_funding_rate_value_or_none.  Each HTTP attempt either raises a
transport exception (requests.get raising, e.g. a timeout) or yields a
response with an HTTP status and a body that may or may not parse as JSON.
The loop runs attempt = 1 .. retries; the outcome of attempt k is supplied
by an oracle outs k.  The trace records the returned value, the number of
HTTP requests performed, and the sleep delays executed between attempts.
-/

inductive JsonV where
  | null : JsonV
  | bool (b : Bool) : JsonV
  | num (q : ℚ) : JsonV
  | str (s : String) : JsonV
  | arr (l : List JsonV) : JsonV
  | obj (fields : List (String × JsonV)) : JsonV

/-- Python truthiness of a parsed JSON value. -/
def pyTruthy : JsonV → Bool
  | .null => false
  | .bool b => b
  | .num q => decide (q ≠ 0)
  | .str s => decide (s ≠ "")
  | .arr l => !l.isEmpty
  | .obj fs => !fs.isEmpty

/-- Dict field lookup (json-parsed dicts have unique keys). -/
def jsonLookup (fs : List (String × JsonV)) (k : String) : Option JsonV :=
  match fs.find? (fun kv => kv.1 = k) with
  | some kv => some kv.2
  | none => none

/-- r.ok in requests: status code below 400. -/
def pyOk (status : Nat) : Bool := status < 400

inductive HttpOutcome where
  | exn : HttpOutcome
  | resp (status : Nat) (body : Option JsonV) : HttpOutcome

inductive AttemptRes where
  | permanentNoData : AttemptRes
  | transient : AttemptRes
  | success (v : JsonV) : AttemptRes

/-- One iteration of the try block of get_funding_rate_value_or_none:
- transport exception: caught, transient;
- body parses to a dict with a truthy error member: return None;
- non-ok status otherwise: raise_for_status, caught, transient;
- body not a dict or lacking a result member: RuntimeError, caught, transient;
- otherwise: return the result member. -/
def attemptEval : HttpOutcome → AttemptRes
  | .exn => .transient
  | .resp status body =>
    match body with
    | some (.obj fs) =>
      if pyTruthy ((jsonLookup fs "error").getD .null) then .permanentNoData
      else if !(pyOk status) then .transient
      else
        match jsonLookup fs "result" with
        | some v => .success v
        | none => .transient
    | _ => .transient

structure FetchTrace where
  result : Option JsonV
  attempts : Nat
  sleeps : List ℚ

/-- The retry loop over the list of attempt numbers (range(1, retries + 1)).
After a transient failure at attempt a the code sleeps retry_backoff_s * a,
but only when a < retries. -/
def fetchLoop (backoff : ℚ) (retries : Nat) (outs : Nat → HttpOutcome) :
    List Nat → FetchTrace
  | [] => ⟨none, 0, []⟩
  | a :: rest =>
    match attemptEval (outs a) with
    | .permanentNoData => ⟨none, 1, []⟩
    | .success v => ⟨some v, 1, []⟩
    | .transient =>
      let t := fetchLoop backoff retries outs rest
      ⟨t.result, t.attempts + 1,
        (if a < retries then [backoff * (a : ℚ)] else []) ++ t.sleeps⟩

/-- Model of get_funding_rate_value_or_none: run the attempts 1 .. retries;
if none returns, the sentinel None is returned after the loop. -/
def getFundingRateValueOrNone (retries : Nat) (backoff : ℚ)
    (outs : Nat → HttpOutcome) : FetchTrace :=
  fetchLoop backoff retries outs (List.range' 1 retries)

theorem fetchLoop_all_transient (backoff : ℚ) (retries : Nat)
    (outs : Nat → HttpOutcome) :
    ∀ (n a : Nat), (∀ k, a ≤ k → k < a + n → attemptEval (outs k) = .transient) →
      fetchLoop backoff retries outs (List.range' a n) =
        ⟨none, n,
          ((List.range' a n).filter (fun k => decide (k < retries))).map
            (fun k => backoff * (k : ℚ))⟩ := by
  intro n
  induction n with
  | zero => intro a h; rfl
  | succ m ih =>
    intro a h
    have hstep : List.range' a (m + 1) = a :: List.range' (a + 1) m := by
      simp [List.range'_succ]
    rw [hstep]
    have ha : attemptEval (outs a) = .transient := h a (le_refl a) (by omega)
    have hrest := ih (a + 1) (fun k hk1 hk2 => h k (by omega) (by omega))
    simp only [fetchLoop, ha, hrest]
    by_cases hlt : a < retries <;> simp [hlt]

theorem range'_one_filter_lt (retries : Nat) :
    (List.range' 1 retries).filter (fun k => decide (k < retries)) =
      List.range' 1 (retries - 1) := by
  match retries with
  | 0 => rfl
  | r + 1 =>
    have hc : List.range' 1 (r + 1) = List.range' 1 r ++ [1 + 1 * r] :=
      List.range'_concat 1 r
    rw [hc, List.filter_append]
    have h1 : (List.range' 1 r).filter (fun k => decide (k < r + 1)) =
        List.range' 1 r := by
      rw [List.filter_eq_self]
      intro a ha
      rw [List.mem_range'] at ha
      obtain ⟨i, hi, rfl⟩ := ha
      simp
      omega
    have h2 : ([1 + 1 * r].filter (fun k => decide (k < r + 1))) = [] := by
      simp
      omega
    rw [h1, h2, List.append_nil]
    simp

theorem fetchLoop_result_shape (backoff : ℚ) (retries : Nat)
    (outs : Nat → HttpOutcome) :
    ∀ l : List Nat,
      (fetchLoop backoff retries outs l).result = none ∨
      ∃ a ∈ l, ∃ v, attemptEval (outs a) = .success v ∧
        (fetchLoop backoff retries outs l).result = some v := by
  intro l
  induction l with
  | nil => left; rfl
  | cons a rest ih =>
    cases h : attemptEval (outs a) with
    | permanentNoData => left; simp [fetchLoop, h]
    | success v =>
      right
      exact ⟨a, List.mem_cons_self a rest, v, h, by simp [fetchLoop, h]⟩
    | transient =>
      rcases ih with hnone | ⟨b, hb, v, hv, hres⟩
      · left; simp [fetchLoop, h, hnone]
      · right
        exact ⟨b, List.mem_cons_of_mem a hb, v, hv, by simp [fetchLoop, h, hres]⟩

/-- C5: for every retry bound, backoff and sequence of HTTP outcomes, the
fetch wrapper returns a defined value that is either the NoData sentinel
(none) or the result value carried by some successful attempt within the
retry budget; being a total Lean function, it propagates no exception.
In particular, if no attempt succeeds, the result is the sentinel. -/
theorem fetch_wrapper_total (retries : Nat) (backoff : ℚ)
    (outs : Nat → HttpOutcome) :
    (getFundingRateValueOrNone retries backoff outs).result = none ∨
    ∃ k, 1 ≤ k ∧ k ≤ retries ∧ ∃ v, attemptEval (outs k) = .success v ∧
      (getFundingRateValueOrNone retries backoff outs).result = some v := by
  unfold getFundingRateValueOrNone
  rcases fetchLoop_result_shape backoff retries outs (List.range' 1 retries) with
    hnone | ⟨a, ha, v, hv, hres⟩
  · left; exact hnone
  · right
    rw [List.mem_range'] at ha
    obtain ⟨i, hi, rfl⟩ := ha
    exact ⟨1 + 1 * i, by omega, by omega, v, hv, hres⟩

/-- C3: a first response that parses to a JSON object with a truthy error
member makes the wrapper return the NoData sentinel at once: exactly one
HTTP request, no sleeps, result none. -/
theorem structured_error_no_retry (retries : Nat) (backoff : ℚ)
    (outs : Nat → HttpOutcome) (st : Nat) (fs : List (String × JsonV))
    (hr : 1 ≤ retries)
    (h1 : outs 1 = HttpOutcome.resp st (some (JsonV.obj fs)))
    (h2 : pyTruthy ((jsonLookup fs "error").getD JsonV.null) = true) :
    getFundingRateValueOrNone retries backoff outs = ⟨none, 1, []⟩ := by
  unfold getFundingRateValueOrNone
  obtain ⟨r, rfl⟩ : ∃ r, retries = r + 1 := ⟨retries - 1, by omega⟩
  have hx : List.range' 1 (r + 1) = 1 :: List.range' 2 r := by
    simp [List.range'_succ]
  rw [hx]
  have he : attemptEval (outs 1) = .permanentNoData := by
    rw [h1]
    unfold attemptEval
    simp [h2]
  simp [fetchLoop, he]

theorem structured_error_no_retry_witness :
    getFundingRateValueOrNone 3 1
      (fun _ => HttpOutcome.resp 400 (some (JsonV.obj
        [("error", JsonV.obj [("code", JsonV.num 10004)])]))) =
      ⟨none, 1, []⟩ :=
  structured_error_no_retry 3 1 _ 400
    [("error", JsonV.obj [("code", JsonV.num 10004)])]
    (by norm_num) rfl (by decide)

/-- C4 (counterexample to the claim as stated): with retries = 3 and every
attempt failing with a transport exception, the wrapper performs 3 HTTP
attempts in total, not the claimed 1 + 3 = 4. -/
theorem transport_retry_count_counterexample :
    (getFundingRateValueOrNone 3 1 (fun _ => HttpOutcome.exn)).attempts = 3 ∧
    (getFundingRateValueOrNone 3 1 (fun _ => HttpOutcome.exn)).attempts ≠ 3 + 1 := by
  constructor <;> decide

/-- C4 (amended): when every attempt fails with a transport failure the
wrapper performs exactly retries HTTP attempts in total, i.e. the initial
attempt plus retries - 1 further attempts, returning the NoData sentinel,
and the delay slept before retry attempt k (k = 1 .. retries - 1) is
backoff_base * k (linear backoff). -/
theorem transport_all_transient_retries (retries : Nat) (backoff : ℚ)
    (outs : Nat → HttpOutcome)
    (h : ∀ k, 1 ≤ k → k ≤ retries → attemptEval (outs k) = .transient) :
    getFundingRateValueOrNone retries backoff outs =
      ⟨none, retries,
        (List.range' 1 (retries - 1)).map (fun k => backoff * (k : ℚ))⟩ := by
  unfold getFundingRateValueOrNone
  rw [fetchLoop_all_transient backoff retries outs retries 1
    (fun k hk1 hk2 => h k hk1 (by omega))]
  rw [range'_one_filter_lt retries]

theorem transport_all_transient_retries_witness :
    getFundingRateValueOrNone 2 5 (fun _ => HttpOutcome.exn) =
      ⟨none, 2, (List.range' 1 (2 - 1)).map (fun k => (5 : ℚ) * (k : ℚ))⟩ :=
  transport_all_transient_retries 2 5 (fun _ => HttpOutcome.exn)
    (fun k hk1 hk2 => rfl)

/-- C10: the wrapper treats a response as a permanent structured error only
when the parsed dict has a truthy error member: a first response with ok
status whose dict carries a falsy error member together with a result
member yields the result value on the first attempt. -/
theorem falsy_error_returns_result (retries : Nat) (backoff : ℚ)
    (outs : Nat → HttpOutcome) (st : Nat) (fs : List (String × JsonV))
    (v : JsonV) (hr : 1 ≤ retries)
    (h1 : outs 1 = HttpOutcome.resp st (some (JsonV.obj fs)))
    (hok : pyOk st = true)
    (herr : pyTruthy ((jsonLookup fs "error").getD JsonV.null) = false)
    (hres : jsonLookup fs "result" = some v) :
    getFundingRateValueOrNone retries backoff outs = ⟨some v, 1, []⟩ := by
  unfold getFundingRateValueOrNone
  obtain ⟨r, rfl⟩ : ∃ r, retries = r + 1 := ⟨retries - 1, by omega⟩
  have hx : List.range' 1 (r + 1) = 1 :: List.range' 2 r := by
    simp [List.range'_succ]
  rw [hx]
  have he : attemptEval (outs 1) = .success v := by
    rw [h1]
    unfold attemptEval
    simp [herr, hok, hres]
  simp [fetchLoop, he]

theorem falsy_error_returns_result_witness :
    getFundingRateValueOrNone 3 1
      (fun _ => HttpOutcome.resp 200 (some (JsonV.obj
        [("error", JsonV.null), ("result", JsonV.num 3)]))) =
      ⟨some (JsonV.num 3), 1, []⟩ :=
  falsy_error_returns_result 3 1 _ 200
    [("error", JsonV.null), ("result", JsonV.num 3)] (JsonV.num 3)
    (by norm_num) rfl rfl rfl rfl

/-! ## Wide-Table Assembler

Model of fetch_monthly_funding_multi_instruments_to_csv.  The fetch wrapper
is abstracted by an oracle fetchR giving its sentinel-or-value result for
an instrument and query window; the run result is either the validation
error raised before any I/O, or the ordered trace of I/O effects (file
open, row writes, HTTP requests) of the run.
-/

def isPySpace (c : Char) : Bool :=
  c = ' ' || c = '\t' || c = '\n' || c = '\r' || c = '\x0b' || c = '\x0c'

/-- Model of str.strip(): drop leading and trailing whitespace. -/
def pyStrip (s : String) : String :=
  ⟨((s.data.dropWhile isPySpace).reverse.dropWhile isPySpace).reverse⟩

/-- The list comprehension cleaning the instrument list:
[i.strip() for i in instruments if i and i.strip()]. -/
def trimInstruments (instruments : List String) : List String :=
  (instruments.filter
    (fun i => !(decide (i = "")) && !(decide (pyStrip i = "")))).map pyStrip

inductive Cell where
  | str (v : String) : Cell
  | int (v : Int) : Cell
  | num (v : ℚ) : Cell
deriving DecidableEq

inductive Eff where
  | openFile : Eff
  | writeRow (cells : List Cell) : Eff
  | http (instrument : String) (startTs endTs : Int) : Eff
deriving DecidableEq

/-- Model of _parse_month_yyyy_mm applied to an already split (year, month)
pair: the source rejects a month outside 1..12 with a ValueError. -/
def parseMonthPair (y m : Nat) : Option Month :=
  if 1 ≤ m ∧ m ≤ 12 then some ⟨y, m⟩ else none

def headerRow (instr : List String) : List Cell :=
  Cell.str "month" :: Cell.str "start_timestamp_ms" ::
    Cell.str "end_timestamp_ms" :: instr.map Cell.str

/-- One written data row: month label, window start, window end, then one
value per instrument in order, the sentinel errorValue substituted when the
fetch returned NoData. -/
def dataRow (fetchR : String → Int → Int → Option ℚ) (instr : List String)
    (errorValue : ℚ) (w : Window) : List Cell :=
  Cell.str (monthLabel w.month) :: Cell.int w.startTs :: Cell.int w.endTs ::
    instr.map (fun i => Cell.num ((fetchR i w.startTs w.endTs).getD errorValue))

/-- Effects of one loop iteration: one HTTP request per instrument, then the
write of the assembled row. -/
def windowEffects (fetchR : String → Int → Int → Option ℚ)
    (instr : List String) (errorValue : ℚ) (w : Window) : List Eff :=
  instr.map (fun i => Eff.http i w.startTs w.endTs) ++
    [Eff.writeRow (dataRow fetchR instr errorValue w)]

def assemblerEffects (fetchR : String → Int → Int → Option ℚ)
    (instr : List String) (s e : Month) (errorValue : ℚ) : List Eff :=
  Eff.openFile :: Eff.writeRow (headerRow instr) ::
    (monthWindows s e).flatMap (windowEffects fetchR instr errorValue)

/-- Model of fetch_monthly_funding_multi_instruments_to_csv: validation
(in source order: instrument trim, month parsing, range check) before the
file is opened and the fetch loop runs. -/
def fetchMonthlyFundingToCsv (fetchR : String → Int → Int → Option ℚ)
    (instruments : List String) (sy sm ey em : Nat) (errorValue : ℚ) :
    Except String (List Eff) :=
  let instr := trimInstruments instruments
  if instr.isEmpty then Except.error "No instruments provided."
  else
    match parseMonthPair sy sm, parseMonthPair ey em with
    | some s, some e =>
      if monthIdx e < monthIdx s then
        Except.error "start_month must be <= end_month"
      else Except.ok (assemblerEffects fetchR instr s e errorValue)
    | _, _ => Except.error "Invalid month. Expected YYYY-MM."

def writtenRows (effs : List Eff) : List (List Cell) :=
  effs.filterMap (fun e => match e with | .writeRow r => some r | _ => none)

/-- The I/O effects actually performed by a run (none when validation
raised). -/
def ioEvents : Except String (List Eff) → List Eff
  | .ok t => t
  | .error _ => []

theorem writtenRows_windowEffects (fetchR : String → Int → Int → Option ℚ)
    (instr : List String) (errV : ℚ) (w : Window) :
    writtenRows (windowEffects fetchR instr errV w) =
      [dataRow fetchR instr errV w] := by
  unfold windowEffects writtenRows
  rw [List.filterMap_append]
  have h1 : (instr.map (fun i => Eff.http i w.startTs w.endTs)).filterMap
      (fun e => match e with | .writeRow r => some r | _ => none) = [] := by
    induction instr with
    | nil => rfl
    | cons a l ih => simpa [List.filterMap_cons] using ih
  rw [h1]
  rfl

theorem writtenRows_assemblerEffects (fetchR : String → Int → Int → Option ℚ)
    (instr : List String) (s e : Month) (errV : ℚ) :
    writtenRows (assemblerEffects fetchR instr s e errV) =
      headerRow instr ::
        (monthWindows s e).map (dataRow fetchR instr errV) := by
  unfold assemblerEffects
  unfold writtenRows
  rw [List.filterMap_cons, List.filterMap_cons]
  simp only
  have hmain : ∀ ws : List Window,
      (ws.flatMap (windowEffects fetchR instr errV)).filterMap
        (fun e => match e with | .writeRow r => some r | _ => none) =
        ws.map (dataRow fetchR instr errV) := by
    intro ws
    induction ws with
    | nil => rfl
    | cons w ws ih =>
      rw [List.flatMap_cons, List.filterMap_append, ih]
      have := writtenRows_windowEffects fetchR instr errV w
      unfold writtenRows at this
      rw [this]
      rfl
  rw [hmain]

theorem addMonths_succ (n : Nat) (c : Month) :
    addMonths (n + 1) c = addOneMonth (addMonths n c) := by
  induction n generalizing c with
  | zero => rfl
  | succ k ih => exact ih (addOneMonth c)

/-- C1: for valid months s <= e, the loop produces exactly
(e.y * 12 + e.m) - (s.y * 12 + s.m) + 1 windows; window i belongs to the
i-th successor month of s (successor wrapping 12 to 1); window starts are
the first-of-month boundary; windows are strictly ascending by month;
each window ends one millisecond before the next window starts; a
single-month range yields exactly one window. -/
theorem months_between_spec (s e : Month) (hs : ValidMonth s) (he : ValidMonth e)
    (h : monthIdx s ≤ monthIdx e) :
    (monthWindows s e).length = (e.y * 12 + e.m) - (s.y * 12 + s.m) + 1 ∧
    (∀ i, ∀ (hi : i < (monthWindows s e).length),
      ((monthWindows s e).get ⟨i, hi⟩).month = addMonths i s ∧
      ((monthWindows s e).get ⟨i, hi⟩).startTs =
        monthStartMs (((monthWindows s e).get ⟨i, hi⟩).month) ∧
      ((monthWindows s e).get ⟨i, hi⟩).endTs =
        monthStartMs (addOneMonth (((monthWindows s e).get ⟨i, hi⟩).month)) - 1) ∧
    (∀ i j, ∀ (hi : i < (monthWindows s e).length)
        (hj : j < (monthWindows s e).length), i < j →
      monthIdx (((monthWindows s e).get ⟨i, hi⟩).month) <
        monthIdx (((monthWindows s e).get ⟨j, hj⟩).month)) ∧
    (∀ i, ∀ (hi : i < (monthWindows s e).length)
        (hi2 : i + 1 < (monthWindows s e).length),
      ((monthWindows s e).get ⟨i + 1, hi2⟩).month =
        addOneMonth (((monthWindows s e).get ⟨i, hi⟩).month) ∧
      ((monthWindows s e).get ⟨i, hi⟩).endTs =
        ((monthWindows s e).get ⟨i + 1, hi2⟩).startTs - 1) ∧
    (s = e → monthWindows s e = [mkWindow s]) := by
  have hget : ∀ i, ∀ (hi : i < (monthWindows s e).length),
      (monthWindows s e).get ⟨i, hi⟩ = mkWindow (addMonths i s) := by
    intro i hi
    have := windowsGo_getElem (monthIdx e + 1 - monthIdx s) s i hi
    simpa [monthWindows, List.get_eq_getElem] using this
  have hlen : (monthWindows s e).length = monthIdx e + 1 - monthIdx s := by
    simpa [monthWindows] using windowsGo_length (monthIdx e + 1 - monthIdx s) s
  refine ⟨?_, ?_, ?_, ?_, ?_⟩
  · rw [hlen]
    unfold monthIdx
    have h1 := hs.1
    have h2 := he.1
    unfold monthIdx at h
    omega
  · intro i hi
    rw [hget i hi]
    exact ⟨rfl, rfl, rfl⟩
  · intro i j hi hj hij
    rw [hget i hi, hget j hj]
    show monthIdx (addMonths i s) < monthIdx (addMonths j s)
    rw [monthIdx_addMonths i s hs, monthIdx_addMonths j s hs]
    omega
  · intro i hi hi2
    rw [hget i hi, hget (i + 1) hi2]
    constructor
    · show addMonths (i + 1) s = addOneMonth (addMonths i s)
      exact addMonths_succ i s
    · show monthStartMs (addOneMonth (addMonths i s)) - 1 =
        monthStartMs (addMonths (i + 1) s) - 1
      rw [addMonths_succ i s]
  · intro hse
    subst hse
    unfold monthWindows
    have hz : monthIdx s + 1 - monthIdx s = 1 := by omega
    rw [hz]
    rfl

theorem months_between_spec_witness :
    (monthWindows ⟨2021, 11⟩ ⟨2022, 2⟩).length =
        (2022 * 12 + 2) - (2021 * 12 + 11) + 1 ∧
      (∀ i, ∀ (hi : i < (monthWindows ⟨2021, 11⟩ ⟨2022, 2⟩).length),
        ((monthWindows ⟨2021, 11⟩ ⟨2022, 2⟩).get ⟨i, hi⟩).month =
          addMonths i ⟨2021, 11⟩ ∧
        ((monthWindows ⟨2021, 11⟩ ⟨2022, 2⟩).get ⟨i, hi⟩).startTs =
          monthStartMs (((monthWindows ⟨2021, 11⟩ ⟨2022, 2⟩).get ⟨i, hi⟩).month) ∧
        ((monthWindows ⟨2021, 11⟩ ⟨2022, 2⟩).get ⟨i, hi⟩).endTs =
          monthStartMs
            (addOneMonth (((monthWindows ⟨2021, 11⟩ ⟨2022, 2⟩).get ⟨i, hi⟩).month)) - 1) ∧
      (∀ i j, ∀ (hi : i < (monthWindows ⟨2021, 11⟩ ⟨2022, 2⟩).length)
          (hj : j < (monthWindows ⟨2021, 11⟩ ⟨2022, 2⟩).length), i < j →
        monthIdx (((monthWindows ⟨2021, 11⟩ ⟨2022, 2⟩).get ⟨i, hi⟩).month) <
          monthIdx (((monthWindows ⟨2021, 11⟩ ⟨2022, 2⟩).get ⟨j, hj⟩).month)) ∧
      (∀ i, ∀ (hi : i < (monthWindows ⟨2021, 11⟩ ⟨2022, 2⟩).length)
          (hi2 : i + 1 < (monthWindows ⟨2021, 11⟩ ⟨2022, 2⟩).length),
        ((monthWindows ⟨2021, 11⟩ ⟨2022, 2⟩).get ⟨i + 1, hi2⟩).month =
          addOneMonth (((monthWindows ⟨2021, 11⟩ ⟨2022, 2⟩).get ⟨i, hi⟩).month) ∧
        ((monthWindows ⟨2021, 11⟩ ⟨2022, 2⟩).get ⟨i, hi⟩).endTs =
          ((monthWindows ⟨2021, 11⟩ ⟨2022, 2⟩).get ⟨i + 1, hi2⟩).startTs - 1) ∧
      ((⟨2021, 11⟩ : Month) = ⟨2022, 2⟩ →
        monthWindows ⟨2021, 11⟩ ⟨2022, 2⟩ = [mkWindow ⟨2021, 11⟩]) :=
  months_between_spec ⟨2021, 11⟩ ⟨2022, 2⟩ (by decide) (by decide) (by decide)

/-- C2: under valid inputs (non-empty trimmed instrument list, valid month
pair order), the run succeeds with the assembler effect trace; the written
table is the header row followed by one data row per month window; every
row (header and data) has exactly 3 + number-of-instruments cells; and the
cell 3 + j of any data row holds the fetched value of instrument j for that
window, with the configured sentinel substituted when the fetch returned
NoData. -/
theorem assembler_wide_table_shape (fetchR : String → Int → Int → Option ℚ)
    (instruments : List String) (sy sm ey em : Nat) (errV : ℚ)
    (hne : trimInstruments instruments ≠ [])
    (hsm1 : 1 ≤ sm) (hsm2 : sm ≤ 12) (hem1 : 1 ≤ em) (hem2 : em ≤ 12)
    (hord : monthIdx (Month.mk sy sm) ≤ monthIdx (Month.mk ey em)) :
    fetchMonthlyFundingToCsv fetchR instruments sy sm ey em errV =
      Except.ok (assemblerEffects fetchR (trimInstruments instruments)
        ⟨sy, sm⟩ ⟨ey, em⟩ errV) ∧
    writtenRows (assemblerEffects fetchR (trimInstruments instruments)
        ⟨sy, sm⟩ ⟨ey, em⟩ errV) =
      headerRow (trimInstruments instruments) ::
        (monthWindows ⟨sy, sm⟩ ⟨ey, em⟩).map
          (dataRow fetchR (trimInstruments instruments) errV) ∧
    (writtenRows (assemblerEffects fetchR (trimInstruments instruments)
        ⟨sy, sm⟩ ⟨ey, em⟩ errV)).length =
      1 + (monthWindows ⟨sy, sm⟩ ⟨ey, em⟩).length ∧
    (∀ row ∈ writtenRows (assemblerEffects fetchR (trimInstruments instruments)
        ⟨sy, sm⟩ ⟨ey, em⟩ errV),
      row.length = 3 + (trimInstruments instruments).length) ∧
    (∀ w ∈ monthWindows ⟨sy, sm⟩ ⟨ey, em⟩,
      (dataRow fetchR (trimInstruments instruments) errV w).drop 3 =
        (trimInstruments instruments).map
          (fun i => Cell.num ((fetchR i w.startTs w.endTs).getD errV))) := by
  refine ⟨?_, writtenRows_assemblerEffects fetchR _ _ _ errV, ?_, ?_, ?_⟩
  · unfold fetchMonthlyFundingToCsv
    have hie : (trimInstruments instruments).isEmpty = false := by
      cases hxx : trimInstruments instruments with
      | nil => exact absurd hxx hne
      | cons a l => rfl
    have hp1 : parseMonthPair sy sm = some ⟨sy, sm⟩ := by
      unfold parseMonthPair
      rw [if_pos ⟨hsm1, hsm2⟩]
    have hp2 : parseMonthPair ey em = some ⟨ey, em⟩ := by
      unfold parseMonthPair
      rw [if_pos ⟨hem1, hem2⟩]
    simp only [hie, Bool.false_eq_true, if_false, hp1, hp2]
    rw [if_neg (by omega)]
  · rw [writtenRows_assemblerEffects]
    simp
    omega
  · intro row hrow
    rw [writtenRows_assemblerEffects] at hrow
    rcases List.mem_cons.mp hrow with hh | hd
    · subst hh
      simp [headerRow]
      omega
    · obtain ⟨w, hw, rfl⟩ := List.mem_map.mp hd
      simp [dataRow]
      omega
  · intro w hw
    rfl

theorem assembler_wide_table_shape_witness :
    fetchMonthlyFundingToCsv
        (fun i _ _ => if i = "ETH-PERPETUAL" then none else some 2)
        ["BTC-PERPETUAL", "  ", "ETH-PERPETUAL"] 2021 12 2022 1 0 =
      Except.ok (assemblerEffects
        (fun i _ _ => if i = "ETH-PERPETUAL" then none else some 2)
        (trimInstruments ["BTC-PERPETUAL", "  ", "ETH-PERPETUAL"])
        ⟨2021, 12⟩ ⟨2022, 1⟩ 0) ∧
      writtenRows (assemblerEffects
        (fun i _ _ => if i = "ETH-PERPETUAL" then none else some 2)
        (trimInstruments ["BTC-PERPETUAL", "  ", "ETH-PERPETUAL"])
        ⟨2021, 12⟩ ⟨2022, 1⟩ 0) =
        headerRow (trimInstruments ["BTC-PERPETUAL", "  ", "ETH-PERPETUAL"]) ::
          (monthWindows ⟨2021, 12⟩ ⟨2022, 1⟩).map
            (dataRow (fun i _ _ => if i = "ETH-PERPETUAL" then none else some 2)
              (trimInstruments ["BTC-PERPETUAL", "  ", "ETH-PERPETUAL"]) 0) ∧
      (writtenRows (assemblerEffects
        (fun i _ _ => if i = "ETH-PERPETUAL" then none else some 2)
        (trimInstruments ["BTC-PERPETUAL", "  ", "ETH-PERPETUAL"])
        ⟨2021, 12⟩ ⟨2022, 1⟩ 0)).length =
        1 + (monthWindows ⟨2021, 12⟩ ⟨2022, 1⟩).length ∧
      (∀ row ∈ writtenRows (assemblerEffects
          (fun i _ _ => if i = "ETH-PERPETUAL" then none else some 2)
          (trimInstruments ["BTC-PERPETUAL", "  ", "ETH-PERPETUAL"])
          ⟨2021, 12⟩ ⟨2022, 1⟩ 0),
        row.length =
          3 + (trimInstruments ["BTC-PERPETUAL", "  ", "ETH-PERPETUAL"]).length) ∧
      (∀ w ∈ monthWindows ⟨2021, 12⟩ ⟨2022, 1⟩,
        (dataRow (fun i _ _ => if i = "ETH-PERPETUAL" then none else some 2)
            (trimInstruments ["BTC-PERPETUAL", "  ", "ETH-PERPETUAL"]) 0 w).drop 3 =
          (trimInstruments ["BTC-PERPETUAL", "  ", "ETH-PERPETUAL"]).map
            (fun i => Cell.num
              (((fun i2 _ _ => if i2 = "ETH-PERPETUAL" then none else some (2 : ℚ))
                i w.startTs w.endTs).getD 0))) :=
  assembler_wide_table_shape
    (fun i _ _ => if i = "ETH-PERPETUAL" then none else some 2)
    ["BTC-PERPETUAL", "  ", "ETH-PERPETUAL"] 2021 12 2022 1 0
    (by decide) (by decide) (by decide) (by decide) (by decide) (by decide)

/-- C6: a run whose trimmed instrument list is empty, or whose (valid)
months are given with start after end, fails with a validation error and
performs no I/O effects at all: the file is never opened or written and no
HTTP request is issued. -/
theorem invalid_input_fails_before_io (fetchR : String → Int → Int → Option ℚ)
    (instruments : List String) (sy sm ey em : Nat) (errV : ℚ)
    (h : trimInstruments instruments = [] ∨
      (1 ≤ sm ∧ sm ≤ 12 ∧ 1 ≤ em ∧ em ≤ 12 ∧
        monthIdx (Month.mk ey em) < monthIdx (Month.mk sy sm))) :
    (∃ msg, fetchMonthlyFundingToCsv fetchR instruments sy sm ey em errV =
      Except.error msg) ∧
    ioEvents (fetchMonthlyFundingToCsv fetchR instruments sy sm ey em errV) =
      [] := by
  rcases h with hempty | ⟨h1, h2, h3, h4, hlt⟩
  · have hie : (trimInstruments instruments).isEmpty = true := by
      rw [hempty]
      rfl
    have hrun : fetchMonthlyFundingToCsv fetchR instruments sy sm ey em errV =
        Except.error "No instruments provided." := by
      unfold fetchMonthlyFundingToCsv
      simp [hie]
    refine ⟨⟨"No instruments provided.", hrun⟩, ?_⟩
    rw [hrun]
    rfl
  · cases hie : (trimInstruments instruments).isEmpty with
    | true =>
      have hrun : fetchMonthlyFundingToCsv fetchR instruments sy sm ey em errV =
          Except.error "No instruments provided." := by
        unfold fetchMonthlyFundingToCsv
        simp [hie]
      refine ⟨⟨"No instruments provided.", hrun⟩, ?_⟩
      rw [hrun]
      rfl
    | false =>
      have hp1 : parseMonthPair sy sm = some ⟨sy, sm⟩ := by
        unfold parseMonthPair
        rw [if_pos ⟨h1, h2⟩]
      have hp2 : parseMonthPair ey em = some ⟨ey, em⟩ := by
        unfold parseMonthPair
        rw [if_pos ⟨h3, h4⟩]
      have hrun : fetchMonthlyFundingToCsv fetchR instruments sy sm ey em errV =
          Except.error "start_month must be <= end_month" := by
        unfold fetchMonthlyFundingToCsv
        simp [hie, hp1, hp2, hlt]
      refine ⟨⟨"start_month must be <= end_month", hrun⟩, ?_⟩
      rw [hrun]
      rfl

theorem invalid_input_fails_before_io_witness :
    (∃ msg, fetchMonthlyFundingToCsv (fun _ _ _ => some 1)
      ["BTC-PERPETUAL"] 2022 5 2022 4 0 = Except.error msg) ∧
    ioEvents (fetchMonthlyFundingToCsv (fun _ _ _ => some 1)
      ["BTC-PERPETUAL"] 2022 5 2022 4 0) = [] :=
  invalid_input_fails_before_io (fun _ _ _ => some 1) ["BTC-PERPETUAL"]
    2022 5 2022 4 0 (Or.inr (by decide))

/-! ## Aggregation Engine (chart_app.py)

Every month value in the dashboard is a first-of-month pandas Timestamp
(parsed from YYYY-MM in load_data or built by _month_start), and comparison
of two such Timestamps agrees with comparison of the month index
y * 12 + (m - 1); the chart model therefore represents a month Timestamp by
that index.  Funding values are rationals.
-/

/-- Model of _month_start: the index of the first-of-month Timestamp. -/
def monthStartC (y m : Nat) : Nat := y * 12 + (m - 1)

/-- Model of _month_end_exclusive: first day of the next month. -/
def monthEndExclusiveC (y m : Nat) : Nat := monthStartC y m + 1

/-- Model of _normalize_range: swap the two boundaries when the caller
supplied an inverted range (start at or after the exclusive end). -/
def normalizeRange (sy sm ey em : Nat) : Nat × Nat :=
  if monthEndExclusiveC ey em ≤ monthStartC sy sm then
    (monthStartC ey em, monthEndExclusiveC sy sm)
  else (monthStartC sy sm, monthEndExclusiveC ey em)

/-- One record of the long (melted) table. -/
structure LongRec where
  inst : String
  month : Nat
  val : ℚ
deriving DecidableEq

/-- Sort key month-then-instrument (the DF_LONG sort order). -/
def keyMI (r : LongRec) : Lex (Nat × String) := toLex (r.month, r.inst)

/-- Sort key instrument-then-month (the cumulative-window sort order). -/
def keyIM (r : LongRec) : Lex (String × Nat) := toLex (r.inst, r.month)

def leMI (a b : LongRec) : Prop := keyMI a ≤ keyMI b

def leIM (a b : LongRec) : Prop := keyIM a ≤ keyIM b

instance : DecidableRel leMI :=
  fun a b => inferInstanceAs (Decidable (keyMI a ≤ keyMI b))

instance : DecidableRel leIM :=
  fun a b => inferInstanceAs (Decidable (keyIM a ≤ keyIM b))

instance : IsTotal LongRec leMI := ⟨fun a b => le_total (keyMI a) (keyMI b)⟩

instance : IsTotal LongRec leIM := ⟨fun a b => le_total (keyIM a) (keyIM b)⟩

instance : IsTrans LongRec leMI := ⟨fun _ _ _ hab hbc => le_trans hab hbc⟩

instance : IsTrans LongRec leIM := ⟨fun _ _ _ hab hbc => le_trans hab hbc⟩

/-- pandas groupby(instrument).cumsum() in row order: each record's value is
replaced by the running total of its instrument, carried by totals. -/
def groupCumsumAux (totals : String → ℚ) : List LongRec → List LongRec
  | [] => []
  | r :: rest =>
    ⟨r.inst, r.month, totals r.inst + r.val⟩ ::
      groupCumsumAux
        (fun i => if i = r.inst then totals r.inst + r.val else totals i) rest

def groupCumsum (l : List LongRec) : List LongRec := groupCumsumAux (fun _ => 0) l

/-- One row of the wide table DF_WIDE: a month and its numeric columns,
read by instrument (column) name. -/
structure WideRow where
  month : Nat
  val : String → ℚ

/-- pandas melt with id variable month: one block of long records per
instrument column, each block listing the wide rows in order. -/
def melt (instruments : List String) (wide : List WideRow) : List LongRec :=
  instruments.flatMap (fun c => wide.map (fun r => ⟨c, r.month, r.val c⟩))

/-- DF_LONG: the melted rows sorted by (month, instrument). -/
def dfLongOf (instruments : List String) (wide : List WideRow) : List LongRec :=
  List.insertionSort leMI (melt instruments wide)

/-- DF_LONG with funding_dec replaced by the all-time per-instrument running
total cum_dec. -/
def cumDecOf (instruments : List String) (wide : List WideRow) : List LongRec :=
  groupCumsum (dfLongOf instruments wide)

/-- Model of the series computation of make_cum_fig: filter the long table
to the selected instruments and the normalized month window, sort by
(instrument, month), and recompute the cumulative sum inside the window. -/
def makeCumSeries (dfLong : List LongRec) (selected : List String)
    (sy sm ey em : Nat) : List LongRec :=
  groupCumsum (List.insertionSort leIM
    ((dfLong.filter (fun r => selected.contains r.inst)).filter
      (fun r => decide ((normalizeRange sy sm ey em).1 ≤ r.month ∧
        r.month < (normalizeRange sy sm ey em).2))))

/-- C7: with an inverted window (end month strictly before start month) the
windowed cumulative series equals the series computed with the two
boundaries swapped: the engine normalizes silently instead of failing. -/
theorem inverted_range_normalizes (dfLong : List LongRec)
    (selected : List String) (sy sm ey em : Nat)
    (h : monthStartC ey em < monthStartC sy sm) :
    makeCumSeries dfLong selected sy sm ey em =
      makeCumSeries dfLong selected ey em sy sm := by
  have hn : normalizeRange sy sm ey em = normalizeRange ey em sy sm := by
    unfold normalizeRange monthEndExclusiveC
    rw [if_pos (by omega), if_neg (by omega)]
  unfold makeCumSeries
  rw [hn]

theorem inverted_range_normalizes_witness :
    makeCumSeries [⟨"BTC-PERPETUAL", 24300, 1⟩] ["BTC-PERPETUAL"]
        2025 3 2024 7 =
      makeCumSeries [⟨"BTC-PERPETUAL", 24300, 1⟩] ["BTC-PERPETUAL"]
        2024 7 2025 3 :=
  inverted_range_normalizes [⟨"BTC-PERPETUAL", 24300, 1⟩] ["BTC-PERPETUAL"]
    2025 3 2024 7 (by decide)

def leByMonth (a b : WideRow) : Prop := a.month ≤ b.month

instance : DecidableRel leByMonth :=
  fun a b => inferInstanceAs (Decidable (a.month ≤ b.month))

instance : IsTotal WideRow leByMonth := ⟨fun a b => le_total a.month b.month⟩

instance : IsTrans WideRow leByMonth := ⟨fun _ _ _ hab hbc => le_trans hab hbc⟩

/-- dff.sort_values("month") in make_stats_table. -/
def sortByMonth (wide : List WideRow) : List WideRow :=
  List.insertionSort leByMonth wide

structure StatsRow where
  latestMonth : ℚ
  last12mSum : ℚ
  totalAllTime : ℚ

/-- Model of the core per-instrument fields of make_stats_table: after
sorting by month, the latest row value (iloc[-1]), the sum of the trailing
12 rows (tail(12)), and the all-time sum, each converted to percent. -/
def makeStatsRow (wide : List WideRow) (c : String) : StatsRow :=
  { latestMonth :=
      100 * (((sortByMonth wide).getLast?.map (fun r => r.val c)).getD 0),
    last12mSum :=
      100 * (((sortByMonth wide).drop ((sortByMonth wide).length - 12)).map
        (fun r => r.val c)).sum,
    totalAllTime := 100 * ((sortByMonth wide).map (fun r => r.val c)).sum }

/-- C9: with fewer than 12 rows of history, tail(12) keeps every row, so the
trailing-12-months sum equals the all-time sum for every instrument. -/
theorem trailing_12m_equals_all_time (wide : List WideRow) (c : String)
    (h : wide.length < 12) :
    (makeStatsRow wide c).last12mSum = (makeStatsRow wide c).totalAllTime := by
  have hlen : (sortByMonth wide).length = wide.length :=
    (List.perm_insertionSort leByMonth wide).length_eq
  have hz : (sortByMonth wide).length - 12 = 0 := by omega
  simp [makeStatsRow, hz]

theorem trailing_12m_equals_all_time_witness :
    (makeStatsRow [⟨600, fun _ => 1⟩, ⟨601, fun _ => 1⟩, ⟨602, fun _ => 1⟩,
        ⟨603, fun _ => 1⟩, ⟨604, fun _ => 1⟩] "BTC-PERPETUAL").last12mSum =
      (makeStatsRow [⟨600, fun _ => 1⟩, ⟨601, fun _ => 1⟩, ⟨602, fun _ => 1⟩,
        ⟨603, fun _ => 1⟩, ⟨604, fun _ => 1⟩] "BTC-PERPETUAL").totalAllTime :=
  trailing_12m_equals_all_time
    [⟨600, fun _ => 1⟩, ⟨601, fun _ => 1⟩, ⟨602, fun _ => 1⟩,
      ⟨603, fun _ => 1⟩, ⟨604, fun _ => 1⟩] "BTC-PERPETUAL" (by decide)

/-! ### Full-range idempotence of the windowed cumulative sum (C8) -/

/-- The conditional per-instrument prefix total of a long table: the sum of
the values of the records of instrument a with month at most m. -/
def condSum (l : List LongRec) (a : String) (m : Nat) : ℚ :=
  ((l.filter (fun q => decide (q.inst = a ∧ q.month ≤ m))).map LongRec.val).sum

theorem groupCumsumAux_length :
    ∀ (l : List LongRec) (totals : String → ℚ),
      (groupCumsumAux totals l).length = l.length := by
  intro l
  induction l with
  | nil => intro totals; rfl
  | cons r rest ih =>
    intro totals
    simp [groupCumsumAux, ih]

theorem groupCumsumAux_getElem :
    ∀ (l : List LongRec) (totals : String → ℚ) (i : Nat)
      (hi : i < (groupCumsumAux totals l).length) (hi2 : i < l.length),
      (groupCumsumAux totals l)[i] =
        ⟨l[i].inst, l[i].month,
          totals (l[i].inst) +
            (((l.take (i + 1)).filter
              (fun q => decide (q.inst = l[i].inst))).map LongRec.val).sum⟩ := by
  intro l
  induction l with
  | nil => intro totals i hi hi2; simp at hi2
  | cons r rest ih =>
    intro totals i hi hi2
    match i with
    | 0 =>
      simp [groupCumsumAux, List.take_succ_cons]
    | j + 1 =>
      have hj : j < (groupCumsumAux
          (fun i => if i = r.inst then totals r.inst + r.val else totals i)
          rest).length := by
        rw [groupCumsumAux_length]
        simpa using hi2
      have hj2 : j < rest.length := by simpa using hi2
      have hstep : (groupCumsumAux totals (r :: rest))[j + 1] =
          (groupCumsumAux
            (fun i => if i = r.inst then totals r.inst + r.val else totals i)
            rest)[j] := by
        simp [groupCumsumAux]
      rw [hstep, ih _ j hj hj2]
      have hget : (r :: rest)[j + 1] = rest[j] := by simp
      rw [hget]
      by_cases hra : rest[j].inst = r.inst
      · have hfil : ((r :: rest).take (j + 1 + 1)).filter
              (fun q => decide (q.inst = rest[j].inst)) =
            r :: (rest.take (j + 1)).filter
              (fun q => decide (q.inst = rest[j].inst)) := by
          rw [List.take_succ_cons, List.filter_cons]
          simp [hra]
        rw [hfil]
        simp only [List.map_cons, List.sum_cons]
        rw [if_pos hra, hra]
        simp only [LongRec.mk.injEq, true_and]
        ring
      · have hfil : ((r :: rest).take (j + 1 + 1)).filter
              (fun q => decide (q.inst = rest[j].inst)) =
            (rest.take (j + 1)).filter
              (fun q => decide (q.inst = rest[j].inst)) := by
          rw [List.take_succ_cons, List.filter_cons]
          have hne2 : r.inst ≠ rest[j].inst := fun hx => hra hx.symm
          simp [hne2]
        rw [hfil, if_neg hra]


/-- Within-instrument month ordering of a long table: any two records of the
same instrument appear with strictly increasing months. -/
def GroupSorted (l : List LongRec) : Prop :=
  ∀ i j (hi : i < l.length) (hj : j < l.length), i < j →
    l[i].inst = l[j].inst → l[i].month < l[j].month

theorem groupSorted_take_filter (l : List LongRec) (hGS : GroupSorted l)
    (i : Nat) (hi : i < l.length) (a : String) (m : Nat)
    (hai : l[i].inst = a) (hmi : l[i].month = m) :
    (l.take (i + 1)).filter (fun q => decide (q.inst = a)) =
      l.filter (fun q => decide (q.inst = a ∧ q.month ≤ m)) := by
  have htake : (l.take (i + 1)).filter (fun q => decide (q.inst = a)) =
      (l.take (i + 1)).filter (fun q => decide (q.inst = a ∧ q.month ≤ m)) := by
    apply List.filter_congr
    intro q hq
    obtain ⟨j, hj, hq2⟩ := List.getElem_of_mem hq
    have hlt2 : j < (i + 1) ⊓ l.length := by
      rw [List.length_take] at hj
      exact hj
    have hj2 : j < i + 1 := by omega
    have hjl : j < l.length := by omega
    have hq3 : l[j] = q := by
      rw [← hq2, List.getElem_take]
    by_cases hqa : q.inst = a
    · have hqm : q.month ≤ m := by
        rcases Nat.lt_or_ge j i with hji | hji
        · have hmon := hGS j i hjl hi hji (by rw [hq3, hqa]; exact hai.symm)
          rw [hq3, hmi] at hmon
          omega
        · have hij : j = i := by omega
          subst hij
          have hqm2 : q.month = m := by
            rw [← hq3]
            exact hmi
          omega
      simp [hqa, hqm]
    · simp [hqa]
  have hdrop : (l.drop (i + 1)).filter
      (fun q => decide (q.inst = a ∧ q.month ≤ m)) = [] := by
    rw [List.filter_eq_nil_iff]
    intro q hq
    obtain ⟨j, hj, hq2⟩ := List.getElem_of_mem hq
    have hjl : i + 1 + j < l.length := by
      have hx := hj
      rw [List.length_drop] at hx
      omega
    have hq3 : l[i + 1 + j] = q := by
      rw [← hq2, List.getElem_drop]
    simp only [decide_eq_true_eq]
    rintro ⟨hqa, hqm⟩
    have hmon := hGS i (i + 1 + j) hi hjl (by omega)
      (by rw [hq3, hai]; exact hqa.symm)
    rw [hq3, hmi] at hmon
    omega
  calc (l.take (i + 1)).filter (fun q => decide (q.inst = a))
      = (l.take (i + 1)).filter (fun q => decide (q.inst = a ∧ q.month ≤ m)) :=
        htake
    _ = (l.take (i + 1)).filter (fun q => decide (q.inst = a ∧ q.month ≤ m)) ++
          (l.drop (i + 1)).filter (fun q => decide (q.inst = a ∧ q.month ≤ m)) := by
        rw [hdrop, List.append_nil]
    _ = (l.take (i + 1) ++ l.drop (i + 1)).filter
          (fun q => decide (q.inst = a ∧ q.month ≤ m)) :=
        (List.filter_append _ _).symm
    _ = l.filter (fun q => decide (q.inst = a ∧ q.month ≤ m)) := by
        rw [List.take_append_drop]

/-- In a group-sorted table, each record of the per-instrument running total
is the conditional prefix sum of its (instrument, month) key over the whole
table. -/
theorem groupCumsum_val_of_mem (l : List LongRec) (hGS : GroupSorted l)
    (r : LongRec) (hr : r ∈ groupCumsum l) :
    r.val = condSum l r.inst r.month ∧
      ∃ q ∈ l, q.inst = r.inst ∧ q.month = r.month := by
  obtain ⟨i, hi, hri⟩ := List.getElem_of_mem hr
  unfold groupCumsum at hi hri
  have hil : i < l.length := by
    have hx := hi
    rw [groupCumsumAux_length l] at hx
    exact hx
  have hval := groupCumsumAux_getElem l (fun _ => 0) i hi hil
  rw [hval] at hri
  have hrinst : r.inst = l[i].inst := by rw [← hri]
  have hrmonth : r.month = l[i].month := by rw [← hri]
  have hrval : r.val = 0 + (((l.take (i + 1)).filter
      (fun q => decide (q.inst = l[i].inst))).map LongRec.val).sum := by
    rw [← hri]
  constructor
  · rw [hrval, zero_add,
      groupSorted_take_filter l hGS i hil (l[i].inst) (l[i].month) rfl rfl]
    unfold condSum
    rw [hrinst, hrmonth]
  · exact ⟨l[i], List.getElem_mem hil, hrinst.symm, hrmonth.symm⟩

theorem groupSorted_of_pairwise_leMI (l : List LongRec)
    (hs : List.Pairwise leMI l)
    (hnd : (l.map (fun r => (r.inst, r.month))).Nodup) : GroupSorted l := by
  intro i j hi hj hij hinst
  have hle := List.pairwise_iff_getElem.mp hs i j hi hj hij
  unfold leMI keyMI at hle
  have hle2 : l[i].month < l[j].month ∨
      (l[i].month = l[j].month ∧ l[i].inst ≤ l[j].inst) := by
    rw [Prod.Lex.le_iff] at hle
    simpa using hle
  have hne : (l[i].inst, l[i].month) ≠ (l[j].inst, l[j].month) := by
    have hpw := List.pairwise_iff_getElem.mp hnd i j
      (by simpa using hi) (by simpa using hj) hij
    simpa using hpw
  rcases hle2 with hlt | ⟨heq, _⟩
  · exact hlt
  · exact absurd (by rw [hinst, heq]) hne

theorem groupSorted_of_pairwise_leIM (l : List LongRec)
    (hs : List.Pairwise leIM l)
    (hnd : (l.map (fun r => (r.inst, r.month))).Nodup) : GroupSorted l := by
  intro i j hi hj hij hinst
  have hle := List.pairwise_iff_getElem.mp hs i j hi hj hij
  unfold leIM keyIM at hle
  have hle2 : l[i].inst < l[j].inst ∨
      (l[i].inst = l[j].inst ∧ l[i].month ≤ l[j].month) := by
    rw [Prod.Lex.le_iff] at hle
    simpa using hle
  have hne : (l[i].inst, l[i].month) ≠ (l[j].inst, l[j].month) := by
    have hpw := List.pairwise_iff_getElem.mp hnd i j
      (by simpa using hi) (by simpa using hj) hij
    simpa using hpw
  rcases hle2 with hlt | ⟨_, hm⟩
  · rw [hinst] at hlt
    exact absurd hlt (lt_irrefl _)
  · have hmne : l[i].month ≠ l[j].month := by
      intro hcontra
      exact hne (by rw [hinst, hcontra])
    omega

theorem inst_mem_of_mem_melt (instruments : List String) (wide : List WideRow)
    (r : LongRec) (hr : r ∈ melt instruments wide) : r.inst ∈ instruments := by
  unfold melt at hr
  rw [List.mem_flatMap] at hr
  obtain ⟨c, hc, hrc⟩ := hr
  rw [List.mem_map] at hrc
  obtain ⟨w, hw, rfl⟩ := hrc
  simpa using hc

theorem month_mem_of_mem_melt (instruments : List String) (wide : List WideRow)
    (r : LongRec) (hr : r ∈ melt instruments wide) :
    r.month ∈ wide.map WideRow.month := by
  unfold melt at hr
  rw [List.mem_flatMap] at hr
  obtain ⟨c, hc, hrc⟩ := hr
  rw [List.mem_map] at hrc
  obtain ⟨w, hw, rfl⟩ := hrc
  rw [List.mem_map]
  exact ⟨w, hw, rfl⟩

theorem melt_keys_nodup (instruments : List String) (wide : List WideRow)
    (hni : instruments.Nodup) (hnm : (wide.map WideRow.month).Nodup) :
    ((melt instruments wide).map (fun r => (r.inst, r.month))).Nodup := by
  induction instruments with
  | nil => simp [melt]
  | cons c cs ih =>
    have hcns := List.nodup_cons.mp hni
    have hmc : melt (c :: cs) wide =
        wide.map (fun w => ⟨c, w.month, w.val c⟩) ++ melt cs wide := by
      unfold melt
      rw [List.flatMap_cons]
    rw [hmc, List.map_append, List.nodup_append]
    refine ⟨?_, ih hcns.2, ?_⟩
    · rw [List.map_map]
      have hcomp : ((fun r : LongRec => (r.inst, r.month)) ∘
          (fun w : WideRow => (⟨c, w.month, w.val c⟩ : LongRec))) =
          ((fun m : Nat => (c, m)) ∘ WideRow.month) := rfl
      rw [hcomp, ← List.map_map]
      exact List.Nodup.map (fun a b hab => by simpa using hab) hnm
    · intro x hx1 hx2
      rw [List.map_map, List.mem_map] at hx1
      rw [List.mem_map] at hx2
      obtain ⟨w, hw, hxw⟩ := hx1
      obtain ⟨r2, hr2, hxr2⟩ := hx2
      have h1 : (c, w.month) = x := hxw
      have h3 : r2.inst = c := by
        have h4 := h1.trans hxr2.symm
        rw [Prod.mk.injEq] at h4
        exact h4.1.symm
      have hinst2 : r2.inst ∈ cs := inst_mem_of_mem_melt cs wide r2 hr2
      rw [h3] at hinst2
      exact hcns.1 hinst2

theorem pairwise_head_le_mem (l : List Nat) (hp : l.Pairwise (· < ·))
    (a : Nat) (ha : l.head? = some a) : ∀ x ∈ l, a ≤ x := by
  cases l with
  | nil => intro x hx; simp at hx
  | cons y ys =>
    have hay : a = y := by
      have := ha
      simp at this
      omega
    subst hay
    intro x hx
    rcases List.mem_cons.mp hx with rfl | hx2
    · exact le_refl x
    · have := (List.pairwise_cons.mp hp).1 x hx2
      omega

theorem pairwise_mem_le_getLast (l : List Nat) (hp : l.Pairwise (· < ·))
    (b : Nat) (hb : l.getLast? = some b) : ∀ x ∈ l, x ≤ b := by
  have hb2 : l.reverse.head? = some b := by
    rw [List.head?_reverse]
    exact hb
  have hp2 : l.reverse.Pairwise (fun x y => y < x) := by
    rw [List.pairwise_reverse]
    exact hp
  intro x hx
  have hx2 : x ∈ l.reverse := by
    rw [List.mem_reverse]
    exact hx
  cases hrev : l.reverse with
  | nil =>
    rw [hrev] at hx2
    simp at hx2
  | cons y ys =>
    rw [hrev] at hb2 hp2 hx2
    have hby : b = y := by
      have := hb2
      simp at this
      omega
    subst hby
    rcases List.mem_cons.mp hx2 with rfl | hx3
    · exact le_refl x
    · have := (List.pairwise_cons.mp hp2).1 x hx3
      omega

theorem condSum_perm (l1 l2 : List LongRec) (h : l1.Perm l2)
    (a : String) (m : Nat) : condSum l1 a m = condSum l2 a m := by
  unfold condSum
  exact List.Perm.sum_eq (List.Perm.map _ (List.Perm.filter _ h))

theorem condSum_filter_of_inst (l : List LongRec) (p : LongRec → Bool)
    (a : String) (m : Nat) (hp : ∀ q : LongRec, q.inst = a → p q = true) :
    condSum (l.filter p) a m = condSum l a m := by
  unfold condSum
  rw [List.filter_filter]
  have hx : l.filter (fun x => decide (x.inst = a ∧ x.month ≤ m) && p x) =
      l.filter (fun q => decide (q.inst = a ∧ q.month ≤ m)) := by
    apply List.filter_congr
    intro q hq
    by_cases hqa : q.inst = a
    · by_cases hqm : q.month ≤ m
      · simp [hqa, hqm, hp q hqa]
      · simp [hqm]
    · simp [hqa]
  rw [hx]

/-- C8: with the window set to the full table range (first month through
last month), every record of the windowed cumulative series carries exactly
the value of the all-time running-total column cum_dec for the same
instrument and month. -/
theorem full_range_cumsum_idempotent (instruments : List String)
    (wide : List WideRow) (selected : List String) (sy sm ey em : Nat)
    (hni : instruments.Nodup)
    (hasc : (wide.map WideRow.month).Pairwise (· < ·))
    (hfirst : (wide.map WideRow.month).head? = some (monthStartC sy sm))
    (hlast : (wide.map WideRow.month).getLast? = some (monthStartC ey em)) :
    ∀ r ∈ makeCumSeries (dfLongOf instruments wide) selected sy sm ey em,
    ∀ r2 ∈ cumDecOf instruments wide,
    r.inst = r2.inst → r.month = r2.month → r.val = r2.val := by
  have hnm : (wide.map WideRow.month).Nodup :=
    hasc.imp (fun h => Nat.ne_of_lt h)
  have hkeys : ((melt instruments wide).map
      (fun r => (r.inst, r.month))).Nodup :=
    melt_keys_nodup instruments wide hni hnm
  have hpermF : (dfLongOf instruments wide).Perm (melt instruments wide) :=
    List.perm_insertionSort leMI (melt instruments wide)
  have hkeysF : ((dfLongOf instruments wide).map
      (fun r => (r.inst, r.month))).Nodup :=
    (List.Perm.nodup_iff (List.Perm.map _ hpermF)).mpr hkeys
  have hGSF : GroupSorted (dfLongOf instruments wide) :=
    groupSorted_of_pairwise_leMI _ (List.sorted_insertionSort leMI _) hkeysF
  have hmemfirst : monthStartC sy sm ∈ wide.map WideRow.month :=
    List.mem_of_mem_head? hfirst
  have hflle : monthStartC sy sm ≤ monthStartC ey em :=
    pairwise_mem_le_getLast _ hasc _ hlast _ hmemfirst
  have hn : normalizeRange sy sm ey em =
      (monthStartC sy sm, monthStartC ey em + 1) := by
    unfold normalizeRange monthEndExclusiveC
    rw [if_neg (by omega)]
  have hfr : ((dfLongOf instruments wide).filter
        (fun r => selected.contains r.inst)).filter
      (fun r => decide ((normalizeRange sy sm ey em).1 ≤ r.month ∧
        r.month < (normalizeRange sy sm ey em).2)) =
      (dfLongOf instruments wide).filter
        (fun r => selected.contains r.inst) := by
    apply List.filter_eq_self.mpr
    intro q hq
    have hqm : q ∈ melt instruments wide :=
      (List.Perm.mem_iff hpermF).mp (List.mem_filter.mp hq).1
    have hmm : q.month ∈ wide.map WideRow.month :=
      month_mem_of_mem_melt instruments wide q hqm
    have hlow : monthStartC sy sm ≤ q.month :=
      pairwise_head_le_mem _ hasc _ hfirst _ hmm
    have hhigh : q.month ≤ monthStartC ey em :=
      pairwise_mem_le_getLast _ hasc _ hlast _ hmm
    rw [hn]
    simp only [decide_eq_true_eq]
    exact ⟨hlow, by omega⟩
  have hW : makeCumSeries (dfLongOf instruments wide) selected sy sm ey em =
      groupCumsum (List.insertionSort leIM
        ((dfLongOf instruments wide).filter
          (fun r => selected.contains r.inst))) := by
    unfold makeCumSeries
    rw [hfr]
  have hpermW : (List.insertionSort leIM
      ((dfLongOf instruments wide).filter
        (fun r => selected.contains r.inst))).Perm
      ((dfLongOf instruments wide).filter
        (fun r => selected.contains r.inst)) :=
    List.perm_insertionSort leIM _
  have hkeysW : ((List.insertionSort leIM
      ((dfLongOf instruments wide).filter
        (fun r => selected.contains r.inst))).map
      (fun r => (r.inst, r.month))).Nodup := by
    apply (List.Perm.nodup_iff (List.Perm.map _ hpermW)).mpr
    exact List.Nodup.sublist (List.Sublist.map _ (List.filter_sublist _)) hkeysF
  have hGSW : GroupSorted (List.insertionSort leIM
      ((dfLongOf instruments wide).filter
        (fun r => selected.contains r.inst))) :=
    groupSorted_of_pairwise_leIM _ (List.sorted_insertionSort leIM _) hkeysW
  intro r hr r2 hr2 hinst hmonth
  rw [hW] at hr
  obtain ⟨hrval, q, hq, hqinst, hqmonth⟩ :=
    groupCumsum_val_of_mem _ hGSW r hr
  have hr2b : r2 ∈ groupCumsum (dfLongOf instruments wide) := hr2
  obtain ⟨hr2val, q2, hq2, hq2inst, hq2month⟩ :=
    groupCumsum_val_of_mem _ hGSF r2 hr2b
  have hqsel : selected.contains r.inst = true := by
    have hqS := (List.Perm.mem_iff hpermW).mp hq
    have hc := (List.mem_filter.mp hqS).2
    rw [← hqinst]
    exact hc
  have hv1 : r.val = condSum (melt instruments wide) r.inst r.month := by
    calc r.val = condSum (List.insertionSort leIM
          ((dfLongOf instruments wide).filter
            (fun rr => selected.contains rr.inst))) r.inst r.month := hrval
      _ = condSum ((dfLongOf instruments wide).filter
            (fun rr => selected.contains rr.inst)) r.inst r.month :=
          condSum_perm _ _ hpermW r.inst r.month
      _ = condSum ((melt instruments wide).filter
            (fun rr => selected.contains rr.inst)) r.inst r.month :=
          condSum_perm _ _ (List.Perm.filter _ hpermF) r.inst r.month
      _ = condSum (melt instruments wide) r.inst r.month :=
          condSum_filter_of_inst _ _ _ _
            (fun q3 hq3i => by rw [hq3i]; exact hqsel)
  have hv2 : r2.val = condSum (melt instruments wide) r2.inst r2.month := by
    calc r2.val
        = condSum (dfLongOf instruments wide) r2.inst r2.month := hr2val
      _ = condSum (melt instruments wide) r2.inst r2.month :=
          condSum_perm _ _ hpermF r2.inst r2.month
  rw [hv1, hv2, hinst, hmonth]

theorem full_range_cumsum_idempotent_witness :
    (⟨"A", 600, 0 + 1⟩ : LongRec).val = (⟨"A", 600, 0 + 1⟩ : LongRec).val :=
  full_range_cumsum_idempotent ["A"] [⟨600, fun _ => 1⟩] ["A"] 50 1 50 1
    (by decide) (by decide) (by decide) (by decide)
    ⟨"A", 600, 0 + 1⟩ (List.Mem.head _)
    ⟨"A", 600, 0 + 1⟩ (List.Mem.head _) rfl rfl
